import Mathlib

/-!
# Verification of the `merkle-rs` Merkle tree

A shallow embedding of `src/main.rs`.  Byte strings are `List Nat`; the
pluggable hash algorithm (`sha2::Sha256` in the demo, any `digest::Digest`
in general) is an external collaborator, modelled as a pure function
`H : List Nat → Hash`: every hashing helper in the source performs a
sequence of `update` calls followed by `finalize_reset()`, which hashes the
concatenation of the updated bytes and restores the hasher to its fresh
state, so a call computes `H` of the concatenated bytes and leaves no state
behind.  `usize` is taken 64 bits wide; positions where overflow or a panic
can occur are modelled explicitly (`Option` / a `Panic` error).
-/

namespace MerkleRS

/-- A digest (`type Hash = Vec<u8>` in the source). -/
abbrev Hash : Type := List Nat

/-- `const LEAF_SIG: u8 = 0u8`. -/
def LEAF_SIG : Nat := 0

/-- `const INTERNAL_SIG: u8 = 1u8`. -/
def INTERNAL_SIG : Nat := 1

/-- `fn hash_leaf`: `update([LEAF_SIG]); update(bytes); finalize_reset()`,
i.e. the digest of the leaf tag followed by the value's bytes. -/
def hash_leaf (H : List Nat → Hash) (value : List Nat) : Hash :=
  H (LEAF_SIG :: value)

/-- `fn hash_internal_node`: the digest of the internal tag, the left child
and the right child; when no right child is supplied the left child is
hashed again in its place. -/
def hash_internal_node (H : List Nat → Hash) (left : Hash) (right : Option Hash) : Hash :=
  match right with
  | some r => H (INTERNAL_SIG :: (left ++ r))
  | none => H (INTERNAL_SIG :: (left ++ left))

/-- The `while i < nodes.len()` loop of `fn build_upper_level`: scan left to
right in steps of two, emitting the pair hash for a full pair and the
self-pair hash for a final unmatched element. -/
def build_upper_level_loop (H : List Nat → Hash) : List Hash → List Hash
  | [] => []
  | [x] => [hash_internal_node H x none]
  | x :: y :: rest => hash_internal_node H x (some y) :: build_upper_level_loop H rest

/-- `fn build_upper_level`: the scan loop followed by the resize padding
rule — if the produced level has more than one element and an odd count,
its last element is duplicated by value (`result.last().unwrap().clone()`). -/
def build_upper_level (H : List Nat → Hash) (nodes : List Hash) : List Hash :=
  let result := build_upper_level_loop H nodes
  if 1 < result.length ∧ result.length % 2 ≠ 0 then
    result ++ [result.getLastD []]
  else
    result

/-- Length of one `build_upper_level` output as a function of the input
length: the raw scan produces `(m + 1) / 2` digests, and the resize rule
pads an odd count greater than one to an even one. -/
def levelLen (m : Nat) : Nat :=
  if 1 < (m + 1) / 2 ∧ (m + 1) / 2 % 2 ≠ 0 then (m + 1) / 2 + 1 else (m + 1) / 2

/-- Total number of node slots the assembler writes above a level of `m`
digests: the sizes of all (padded) upper levels down to the single root.
The first argument is recursion fuel; `levelSum m m` is the intended value
(one level always shrinks the count, so `m` steps suffice). -/
def levelSum : Nat → Nat → Nat
  | 0, _ => 0
  | fuel + 1, m => if m ≤ 1 then 0 else levelLen m + levelSum fuel (levelLen m)

/-- Number of upper levels the assembler builds above a level of `m`
digests (fuelled like `levelSum`). -/
def levelCount : Nat → Nat → Nat
  | 0, _ => 0
  | fuel + 1, m => if m ≤ 1 then 0 else 1 + levelCount fuel (levelLen m)

/-- `nodes[s..s + xs.len()].clone_from_slice(&xs)`: overwrite the window of
length `xs.length` starting at `s`.  Meaningful when `s + xs.length ≤
l.length`; every use below is guarded by exactly that bound. -/
def writeSlice (l : List Hash) (s : Nat) (xs : List Hash) : List Hash :=
  l.take s ++ xs ++ l.drop (s + xs.length)

/-- The `while parents.len() > 1` loop of `fn build_internal_nodes`.  Each
iteration builds the next level and writes it into the window ending where
the previous window began; `upper_level_start -= parents.len()` and the
slice write both panic when out of range, modelled by `none`.  The fuel is
structural; `parents.length` steps are always enough because a level
strictly shrinks. -/
def build_internal_loop (H : List Nat → Hash) :
    Nat → List Hash → List Hash → Nat → Option (List Hash × List Hash)
  | 0, _, _, _ => none
  | fuel + 1, nodes, parents, s =>
    if 1 < parents.length then
      let ps := build_upper_level H parents
      if ps.length ≤ s ∧ s ≤ nodes.length then
        build_internal_loop H fuel (writeSlice nodes (s - ps.length) ps) ps (s - ps.length)
      else none
    else some (nodes, parents)

/-- `fn build_internal_nodes`: build the first upper level from the leaf
slots, write it at the right edge of the internal region, run the window
loop, then write the final single digest into slot 0
(`nodes[0] = parents.remove(0)`, a panic — `none` — if `parents` or `nodes`
is empty). -/
def build_internal_nodes (H : List Nat → Hash) (nodes : List Hash)
    (count_internal_nodes : Nat) : Option (List Hash) :=
  let parents := build_upper_level H (nodes.drop count_internal_nodes)
  if parents.length ≤ count_internal_nodes ∧ count_internal_nodes ≤ nodes.length then
    let s := count_internal_nodes - parents.length
    match build_internal_loop H parents.length (writeSlice nodes s parents) parents s with
    | some (nodes2, pfin) =>
      match pfin, nodes2 with
      | p :: _, _ :: rest2 => some (p :: rest2)
      | _, _ => none
    | none => none
  else none

/-- One `v |= v >> k` step of `fn next_power_of_2`. -/
def smearStep (v k : Nat) : Nat := v ||| (v >>> k)

/-- The five smearing steps of `fn next_power_of_2` (shifts by 1, 2, 4, 8
and 16 — the source has no `v |= v >> 32` step). -/
def smear32 (v : Nat) : Nat :=
  smearStep (smearStep (smearStep (smearStep (smearStep v 1) 2) 4) 8) 16

/-- `fn next_power_of_2`, with `usize` 64 bits wide: `v -= 1` agrees with
truncated subtraction for every positive `n` (the range the specification
admits), the shifts and ors never overflow, and the final `v += 1` wraps
modulo `2 ^ 64`. -/
def next_power_of_2 (n : Nat) : Nat :=
  (smear32 (n - 1) + 1) % 2 ^ 64

/-- The two contract violations of the facade, plus `Panic` for any other
Rust panic site (an out-of-range index or a `usize` underflow). -/
inductive MerkleError where
  | DegenerateInput
  | PositionOutOfRange
  | Panic
deriving Repr, DecidableEq

/-- `struct MerkleTree<H>`. -/
structure MerkleTree where
  hasher : List Nat → Hash
  nodes : List Hash
  count_internal_nodes : Nat
  count_leaves : Nat

/-- `MerkleTree::build_with_hasher`: assert more than one value
(`DegenerateInput` otherwise), hash the leaves, allocate
`next_power_of_2 n + n` slots with the leaves at the tail, and assemble the
internal nodes. -/
def build_with_hasher (values : List (List Nat)) (H : List Nat → Hash) :
    Except MerkleError MerkleTree :=
  if 1 < values.length then
    let leaves := values.map (fun v => hash_leaf H v)
    let count_leaves := leaves.length
    let count_internal_nodes := next_power_of_2 count_leaves
    let nodes := List.replicate count_internal_nodes ([] : Hash) ++ leaves
    match build_internal_nodes H nodes count_internal_nodes with
    | some nodes2 => .ok ⟨H, nodes2, count_internal_nodes, count_leaves⟩
    | none => .error .Panic
  else .error .DegenerateInput

/-- `MerkleTree::verify`: assert that the position addresses a leaf
(`PositionOutOfRange` otherwise), then compare the stored digest at slot
`count_internal_nodes + position` byte for byte with the recomputed leaf
digest of the supplied value.  The source takes `&mut self` (the embedded
hasher is exercised and reset); the returned tree is the state of `self`
after the call. -/
def MerkleTree.verify (t : MerkleTree) (position : Nat) (value : List Nat) :
    Except MerkleError (Bool × MerkleTree) :=
  if position < t.count_leaves then
    match t.nodes[t.count_internal_nodes + position]? with
    | some d => .ok ((d == hash_leaf t.hasher value), t)
    | none => .error .Panic
  else .error .PositionOutOfRange

/-- `MerkleTree::root_hash`: `&self.nodes[0]` (`none` models the panic on
an empty node array, which a built tree never has). -/
def MerkleTree.root_hash (t : MerkleTree) : Option Hash := t.nodes[0]?

/-- Reference definition of the root digest: fold `build_upper_level` over
the leaf level until one digest remains (fuelled; `level.length` steps
suffice). The assembler is proved to put exactly this digest into slot 0. -/
def root_spec (H : List Nat → Hash) : Nat → List Hash → Option Hash
  | 0, _ => none
  | fuel + 1, level =>
    if level.length ≤ 1 then level.head? else root_spec H fuel (build_upper_level H level)

/-- Build from `values`, then verify `value` at `position`: the round-trip
composition the facade exposes. -/
def build_then_verify (values : List (List Nat)) (H : List Nat → Hash) (position : Nat)
    (value : List Nat) : Except MerkleError Bool :=
  (build_with_hasher values H).bind fun t => (t.verify position value).map Prod.fst

/-- Modelled from the spec: "`nextPow2(n: positive integer) -> integer`:
smallest power of two ≥ n" — `p` is a power of two, at least `n`, and below
every power of two that is at least `n`. -/
def IsLeastPowTwoGe (p n : Nat) : Prop :=
  (∃ k, p = 2 ^ k) ∧ n ≤ p ∧ ∀ q, (∃ k, q = 2 ^ k) → n ≤ q → p ≤ q

end MerkleRS

namespace MerkleRS

/-! ## Lengths of levels -/

theorem build_upper_level_loop_length (H : List Nat → Hash) (l : List Hash) :
    (build_upper_level_loop H l).length = (l.length + 1) / 2 := by
  match l with
  | [] => simp [build_upper_level_loop]
  | [x] => simp [build_upper_level_loop]
  | x :: y :: rest =>
    have ih := build_upper_level_loop_length H rest
    simp [build_upper_level_loop, ih]
    omega

theorem build_upper_level_length (H : List Nat → Hash) (l : List Hash) :
    (build_upper_level H l).length = levelLen l.length := by
  unfold build_upper_level levelLen
  simp only [build_upper_level_loop_length]
  split
  · simp [build_upper_level_loop_length]
  · simp [build_upper_level_loop_length]

theorem levelLen_lt (m : Nat) (h : 2 ≤ m) : levelLen m < m := by
  unfold levelLen
  split <;> omega

theorem levelLen_pos (m : Nat) (h : 1 ≤ m) : 1 ≤ levelLen m := by
  unfold levelLen
  split <;> omega

theorem levelSum_eq_of_ge_two (f m : Nat) (h2 : 2 ≤ m) :
    levelSum (f + 1) m = levelLen m + levelSum f (levelLen m) := by
  simp only [levelSum]
  rw [if_neg (by omega)]

theorem levelSum_eq_zero (f m : Nat) (h1 : m ≤ 1) : levelSum f m = 0 := by
  cases f with
  | zero => rfl
  | succ f => simp only [levelSum]; rw [if_pos h1]

theorem levelCount_eq_of_ge_two (f m : Nat) (h2 : 2 ≤ m) :
    levelCount (f + 1) m = 1 + levelCount f (levelLen m) := by
  simp only [levelCount]
  rw [if_neg (by omega)]

theorem levelCount_eq_zero (f m : Nat) (h1 : m ≤ 1) : levelCount f m = 0 := by
  cases f with
  | zero => rfl
  | succ f => simp only [levelCount]; rw [if_pos h1]

theorem levelSum_fuel : ∀ f g m, m ≤ f → m ≤ g → levelSum f m = levelSum g m := by
  intro f
  induction f with
  | zero =>
    intro g m hf _
    have hm : m = 0 := by omega
    subst hm
    rw [levelSum_eq_zero 0 0 (by omega), levelSum_eq_zero g 0 (by omega)]
  | succ f ih =>
    intro g m hf hg
    by_cases h1 : m ≤ 1
    · rw [levelSum_eq_zero _ _ h1, levelSum_eq_zero _ _ h1]
    · have h2 : 2 ≤ m := by omega
      obtain ⟨g', rfl⟩ : ∃ g', g = g' + 1 := ⟨g - 1, by omega⟩
      rw [levelSum_eq_of_ge_two _ _ h2, levelSum_eq_of_ge_two _ _ h2]
      have hlt := levelLen_lt m h2
      rw [ih g' (levelLen m) (by omega) (by omega)]

theorem levelCount_fuel : ∀ f g m, m ≤ f → m ≤ g → levelCount f m = levelCount g m := by
  intro f
  induction f with
  | zero =>
    intro g m hf _
    have hm : m = 0 := by omega
    subst hm
    rw [levelCount_eq_zero 0 0 (by omega), levelCount_eq_zero g 0 (by omega)]
  | succ f ih =>
    intro g m hf hg
    by_cases h1 : m ≤ 1
    · rw [levelCount_eq_zero _ _ h1, levelCount_eq_zero _ _ h1]
    · have h2 : 2 ≤ m := by omega
      obtain ⟨g', rfl⟩ : ∃ g', g = g' + 1 := ⟨g - 1, by omega⟩
      rw [levelCount_eq_of_ge_two _ _ h2, levelCount_eq_of_ge_two _ _ h2]
      have hlt := levelLen_lt m h2
      rw [ih g' (levelLen m) (by omega) (by omega)]

/-! ## The window-write primitive -/

theorem writeSlice_length (l xs : List Hash) (s : Nat) (h : s + xs.length ≤ l.length) :
    (writeSlice l s xs).length = l.length := by
  simp [writeSlice]
  omega

theorem writeSlice_drop (l xs : List Hash) (s : Nat) (h : s + xs.length ≤ l.length) :
    (writeSlice l s xs).drop (s + xs.length) = l.drop (s + xs.length) := by
  unfold writeSlice
  exact List.drop_left' (by simp; omega)

theorem drop_eq_of_drop_eq {a b : List Hash} {s t : Nat}
    (h : a.drop s = b.drop s) (hst : s ≤ t) : a.drop t = b.drop t := by
  have ht : t = s + (t - s) := by omega
  rw [ht, ← List.drop_drop, h, List.drop_drop]

theorem getElem?_drop' {α : Type} (l : List α) (n i : Nat) : (l.drop n)[i]? = l[n + i]? := by
  induction n generalizing l with
  | zero => simp
  | succ n ih =>
    cases l with
    | nil => simp
    | cons x xs =>
      simp only [List.drop_succ_cons, ih xs]
      have hni : n + 1 + i = (n + i) + 1 := by omega
      rw [hni]
      simp

end MerkleRS

namespace MerkleRS

/-! ## Bit-level analysis of the smearing steps -/

theorem smearStep_testBit (w k i : Nat) :
    (smearStep w k).testBit i = (w.testBit i || w.testBit (i + k)) := by
  unfold smearStep
  rw [Nat.testBit_or, Nat.testBit_shiftRight, Nat.add_comm k i]

theorem smearChain {v w : Nat} (c m : Nat) (hm : m ≤ c)
    (hw : ∀ i, w.testBit i = true ↔ ∃ k, k < c ∧ v.testBit (i + k) = true) :
    ∀ i, (smearStep w m).testBit i = true ↔ ∃ k, k < c + m ∧ v.testBit (i + k) = true := by
  intro i
  rw [smearStep_testBit, Bool.or_eq_true, hw i, hw (i + m)]
  constructor
  · rintro (⟨k, hk, hb⟩ | ⟨k, hk, hb⟩)
    · exact ⟨k, by omega, hb⟩
    · exact ⟨m + k, by omega, by rwa [← Nat.add_assoc]⟩
  · rintro ⟨k, hk, hb⟩
    by_cases hkc : k < c
    · exact Or.inl ⟨k, hkc, hb⟩
    · right
      refine ⟨k - m, by omega, ?_⟩
      have hik : i + m + (k - m) = i + k := by omega
      rwa [hik]

theorem smear32_testBit (v i : Nat) :
    (smear32 v).testBit i = true ↔ ∃ k, k < 32 ∧ v.testBit (i + k) = true := by
  have h1 : ∀ i, v.testBit i = true ↔ ∃ k, k < 1 ∧ v.testBit (i + k) = true := by
    intro j
    constructor
    · intro hb
      exact ⟨0, by omega, by simpa using hb⟩
    · rintro ⟨k, hk, hb⟩
      have hk0 : k = 0 := by omega
      subst hk0
      simpa using hb
  have h2 := smearChain 1 1 (le_refl 1) h1
  have h4 := smearChain 2 2 (le_refl 2) h2
  have h8 := smearChain 4 4 (le_refl 4) h4
  have h16 := smearChain 8 8 (le_refl 8) h8
  have h32 := smearChain 16 16 (le_refl 16) h16
  simpa only [smear32] using h32 i

theorem le_smear32 (v : Nat) : v ≤ smear32 v := by
  apply Nat.le_of_testBit
  intro i hb
  exact (smear32_testBit v i).mpr ⟨0, by omega, by simpa using hb⟩

theorem smear32_lt {v c : Nat} (h : v < 2 ^ c) : smear32 v < 2 ^ c := by
  have step : ∀ w k, w < 2 ^ c → smearStep w k < 2 ^ c := by
    intro w k hw
    refine Nat.or_lt_two_pow hw (lt_of_le_of_lt ?_ hw)
    rw [Nat.shiftRight_eq_div_pow]
    exact Nat.div_le_self _ _
  exact step _ 16 (step _ 8 (step _ 4 (step _ 2 (step _ 1 h))))

theorem testBit_two_pow_sub_two_pow {a b i : Nat} (hba : b ≤ a) :
    (2 ^ a - 2 ^ b).testBit i = (decide (b ≤ i) && decide (i < a)) := by
  have h1 : 2 ^ (a - b) * 2 ^ b = 2 ^ a := by
    rw [← Nat.pow_add]
    congr 1
    omega
  have h2 : 2 ^ a - 2 ^ b = (2 ^ (a - b) - 1) <<< b := by
    rw [Nat.shiftLeft_eq, Nat.sub_mul, Nat.one_mul, h1]
  rw [h2, Nat.testBit_shiftLeft, Nat.testBit_two_pow_sub_one]
  by_cases hbi : b ≤ i
  · have hdec : decide (b ≤ i) = true := decide_eq_true hbi
    rw [hdec, Bool.true_and]
    exact decide_eq_decide.mpr (by omega)
  · simp [hbi]

theorem mask_le_smear32 {v a b : Nat} (hba : b ≤ a + 1)
    (hcov : ∀ j, b ≤ j → j ≤ a → ∃ k, k < 32 ∧ v.testBit (j + k) = true) :
    2 ^ (a + 1) - 2 ^ b ≤ smear32 v := by
  apply Nat.le_of_testBit
  intro i hb
  rw [testBit_two_pow_sub_two_pow hba] at hb
  simp only [Bool.and_eq_true, decide_eq_true_eq] at hb
  exact (smear32_testBit v i).mpr (hcov i hb.1 (by omega))

theorem testBit_log2_self {v : Nat} (hv : v ≠ 0) : v.testBit v.log2 = true := by
  have h1 : 2 ^ v.log2 ≤ v := Nat.log2_self_le hv
  have h2 : v < 2 ^ (v.log2 + 1) := (Nat.log2_lt hv).mp (Nat.lt_succ_self _)
  rw [Nat.testBit_to_div_mod]
  have hdiv : v / 2 ^ v.log2 = 1 := by
    apply Nat.div_eq_of_lt_le
    · simpa using h1
    · have hp : 2 ^ (v.log2 + 1) = 2 ^ v.log2 * 2 := by rw [Nat.pow_succ]
      omega
  rw [hdiv]
  decide

theorem bound_of_testBit_false {v c d : Nat} (hd : d ≤ c) (hlt : v < 2 ^ (c + 1))
    (hbit : v.testBit d = false) : v + 2 ^ d < 2 ^ (c + 1) := by
  have hpow : 0 < 2 ^ (d + 1) := Nat.two_pow_pos _
  have hvqr : 2 ^ (d + 1) * (v / 2 ^ (d + 1)) + v % 2 ^ (d + 1) = v :=
    Nat.div_add_mod v (2 ^ (d + 1))
  have hrlt : v % 2 ^ (d + 1) < 2 ^ (d + 1) := Nat.mod_lt _ hpow
  have hrbit : (v % 2 ^ (d + 1)).testBit d = false := by
    rw [Nat.testBit_mod_two_pow]
    simp [hbit]
  have hrd : v % 2 ^ (d + 1) < 2 ^ d := by
    by_contra hge
    push_neg at hge
    have hdiv1 : v % 2 ^ (d + 1) / 2 ^ d = 1 := by
      apply Nat.div_eq_of_lt_le
      · simpa using hge
      · have hp : 2 ^ (d + 1) = 2 ^ d * 2 := by rw [Nat.pow_succ]
        omega
    rw [Nat.testBit_to_div_mod, hdiv1] at hrbit
    simp at hrbit
  have hpows : 2 ^ (d + 1) * 2 ^ (c - d) = 2 ^ (c + 1) := by
    rw [← Nat.pow_add]
    congr 1
    omega
  have hqlt : v / 2 ^ (d + 1) < 2 ^ (c - d) := by
    apply Nat.div_lt_of_lt_mul
    rw [hpows]
    exact hlt
  have hdd : 2 ^ (d + 1) = 2 ^ d + 2 ^ d := by
    have hp : 2 ^ (d + 1) = 2 ^ d * 2 := by rw [Nat.pow_succ]
    omega
  have hstep : v + 2 ^ d < 2 ^ (d + 1) * (v / 2 ^ (d + 1) + 1) := by
    have hexp : 2 ^ (d + 1) * (v / 2 ^ (d + 1) + 1) =
        2 ^ (d + 1) * (v / 2 ^ (d + 1)) + 2 ^ (d + 1) := by ring
    omega
  have hfin : 2 ^ (d + 1) * (v / 2 ^ (d + 1) + 1) ≤ 2 ^ (d + 1) * 2 ^ (c - d) :=
    Nat.mul_le_mul_left _ (by omega)
  omega

end MerkleRS

namespace MerkleRS

/-! ## Bounds on the total size of the upper levels -/

theorem two_mul_levelLen_le (m : Nat) (h2 : 2 ≤ m) :
    2 * levelLen m ≤ 2 ^ Nat.clog 2 m := by
  have hc : 0 < Nat.clog 2 m := Nat.clog_pos one_lt_two h2
  have hm : m ≤ 2 ^ Nat.clog 2 m := Nat.le_pow_clog one_lt_two m
  have hsplit : 2 ^ Nat.clog 2 m = 2 * 2 ^ (Nat.clog 2 m - 1) := by
    conv_lhs => rw [show Nat.clog 2 m = (Nat.clog 2 m - 1) + 1 by omega]
    rw [Nat.pow_succ]
    ring
  unfold levelLen
  by_cases hpad : 1 < (m + 1) / 2 ∧ (m + 1) / 2 % 2 ≠ 0
  · rw [if_pos hpad]
    rcases Nat.eq_zero_or_pos (Nat.clog 2 m - 1) with hz | hpos
    · rw [hz] at hsplit
      simp at hsplit
      omega
    · have hsplit2 : 2 ^ (Nat.clog 2 m - 1) = 2 * 2 ^ (Nat.clog 2 m - 1 - 1) := by
        conv_lhs => rw [show Nat.clog 2 m - 1 = (Nat.clog 2 m - 1 - 1) + 1 by omega]
        rw [Nat.pow_succ]
        ring
      omega
  · rw [if_neg hpad]
    omega

theorem levelSum_le_clog : ∀ f m, 2 ≤ m → m ≤ f → levelSum f m ≤ 2 ^ Nat.clog 2 m - 1 := by
  intro f
  induction f with
  | zero =>
    intro m h2 hf
    omega
  | succ f ih =>
    intro m h2 hf
    rw [levelSum_eq_of_ge_two f m h2]
    have hlt := levelLen_lt m h2
    have hhalf := two_mul_levelLen_le m h2
    have hc : 0 < Nat.clog 2 m := Nat.clog_pos one_lt_two h2
    have hsplit : 2 ^ Nat.clog 2 m = 2 * 2 ^ (Nat.clog 2 m - 1) := by
      conv_lhs => rw [show Nat.clog 2 m = (Nat.clog 2 m - 1) + 1 by omega]
      rw [Nat.pow_succ]
      ring
    by_cases hL : levelLen m ≤ 1
    · rw [levelSum_eq_zero f _ hL]
      have hge2 : 2 ≤ 2 ^ Nat.clog 2 m := by
        calc 2 = 2 ^ 1 := (Nat.pow_one 2).symm
        _ ≤ 2 ^ Nat.clog 2 m := Nat.pow_le_pow_right (by omega) (by omega)
      omega
    · have h2L : 2 ≤ levelLen m := by omega
      have ihL := ih (levelLen m) h2L (by omega)
      have hcL : Nat.clog 2 (levelLen m) ≤ Nat.clog 2 m - 1 := by
        rw [← Nat.le_pow_iff_clog_le one_lt_two]
        omega
      have hmono : 2 ^ Nat.clog 2 (levelLen m) ≤ 2 ^ (Nat.clog 2 m - 1) :=
        Nat.pow_le_pow_right (by omega) hcL
      omega

theorem levelSum_le_linear : ∀ f m, m ≤ f → levelSum f m ≤ m + 3 * levelCount f m := by
  intro f
  induction f with
  | zero =>
    intro m hf
    have hm : m = 0 := by omega
    subst hm
    simp [levelSum]
  | succ f ih =>
    intro m hf
    by_cases h1 : m ≤ 1
    · rw [levelSum_eq_zero _ _ h1]
      omega
    · have h2 : 2 ≤ m := by omega
      rw [levelSum_eq_of_ge_two f m h2, levelCount_eq_of_ge_two f m h2]
      have hlt := levelLen_lt m h2
      have ihL := ih (levelLen m) (by omega)
      have h2L : 2 * levelLen m ≤ m + 3 := by
        unfold levelLen
        split <;> omega
      omega

theorem levelCount_le : ∀ k f m, m ≤ f → m ≤ 2 ^ k + 2 → levelCount f m ≤ k + 2 := by
  intro k
  induction k with
  | zero =>
    intro f m hf hm
    simp only [pow_zero] at hm
    by_cases h1 : m ≤ 1
    · rw [levelCount_eq_zero _ _ h1]
      omega
    · have h2 : 2 ≤ m := by omega
      obtain ⟨f', rfl⟩ : ∃ f', f = f' + 1 := ⟨f - 1, by omega⟩
      rw [levelCount_eq_of_ge_two f' m h2]
      have hm3 : m = 2 ∨ m = 3 := by omega
      have hL2 : levelLen 2 = 1 := by decide
      have hL3 : levelLen 3 = 2 := by decide
      rcases hm3 with hm2 | hm3
      · subst hm2
        rw [hL2, levelCount_eq_zero _ _ (by omega)]
        omega
      · subst hm3
        rw [hL3]
        obtain ⟨f'', rfl⟩ : ∃ f'', f' = f'' + 1 := ⟨f' - 1, by omega⟩
        rw [levelCount_eq_of_ge_two f'' 2 (by omega), hL2,
          levelCount_eq_zero _ _ (by omega)]
  | succ k ih =>
    intro f m hf hm
    by_cases h1 : m ≤ 1
    · rw [levelCount_eq_zero _ _ h1]
      omega
    · have h2 : 2 ≤ m := by omega
      obtain ⟨f', rfl⟩ : ∃ f', f = f' + 1 := ⟨f - 1, by omega⟩
      rw [levelCount_eq_of_ge_two f' m h2]
      have hlt := levelLen_lt m h2
      have hsplit : 2 ^ (k + 1) = 2 * 2 ^ k := by
        rw [Nat.pow_succ]
        ring
      have hLbound : levelLen m ≤ 2 ^ k + 2 := by
        unfold levelLen
        split <;> omega
      have := ih f' (levelLen m) (by omega) hLbound
      omega

end MerkleRS

namespace MerkleRS

/-- The sum of all upper-level sizes is at most the smeared value
`smear32 (n - 1)` — the heart of the in-bounds argument for the window
assembler, valid for every leaf count a Rust `Vec` can reach. -/
theorem levelSum_le_smear32 (n : Nat) (h2 : 2 ≤ n) (h63 : n < 2 ^ 63) :
    levelSum n n ≤ smear32 (n - 1) := by
  have hv1 : 1 ≤ n - 1 := by omega
  have hbit : (n - 1).testBit (n - 1).log2 = true := testBit_log2_self (by omega)
  have hup : n - 1 < 2 ^ ((n - 1).log2 + 1) :=
    (Nat.log2_lt (by omega)).mp (Nat.lt_succ_self _)
  have hlow : 2 ^ (n - 1).log2 ≤ n - 1 := Nat.log2_self_le (by omega)
  have hh62 : (n - 1).log2 ≤ 62 := by
    by_contra hcon
    push_neg at hcon
    have hmono : 2 ^ 63 ≤ 2 ^ (n - 1).log2 := Nat.pow_le_pow_right (by omega) (by omega)
    omega
  have hnle : n ≤ 2 ^ ((n - 1).log2 + 1) := by omega
  have route1 : 2 ^ ((n - 1).log2 + 1) - 1 ≤ smear32 (n - 1) →
      levelSum n n ≤ smear32 (n - 1) := by
    intro hs
    have hL1 := levelSum_le_clog n n h2 (le_refl n)
    have hclog : Nat.clog 2 n ≤ (n - 1).log2 + 1 :=
      (Nat.le_pow_iff_clog_le one_lt_two).mp hnle
    have hmono : 2 ^ Nat.clog 2 n ≤ 2 ^ ((n - 1).log2 + 1) :=
      Nat.pow_le_pow_right (by omega) hclog
    omega
  by_cases hA : (n - 1).log2 ≤ 31
  · apply route1
    have hm := mask_le_smear32 (v := n - 1) (a := (n - 1).log2) (b := 0) (by omega) ?_
    · simpa using hm
    · intro j _ hja
      refine ⟨(n - 1).log2 - j, by omega, ?_⟩
      rw [show j + ((n - 1).log2 - j) = (n - 1).log2 by omega]
      exact hbit
  · push_neg at hA
    by_cases hwin : ∀ j, (n - 1).log2 - 31 ≤ j → j ≤ (n - 1).log2 → (n - 1).testBit j = true
    · apply route1
      have hm := mask_le_smear32 (v := n - 1) (a := (n - 1).log2) (b := 0) (by omega) ?_
      · simpa using hm
      · intro j _ hja
        by_cases hjw : (n - 1).log2 - 31 ≤ j
        · exact ⟨0, by omega, by simpa using hwin j hjw hja⟩
        · refine ⟨(n - 1).log2 - 31 - j, by omega, ?_⟩
          rw [show j + ((n - 1).log2 - 31 - j) = (n - 1).log2 - 31 by omega]
          exact hwin ((n - 1).log2 - 31) (le_refl _) (by omega)
    · push_neg at hwin
      obtain ⟨j0, hj0b, hj0t, hj0f⟩ := hwin
      have hj0f' : (n - 1).testBit j0 = false := by
        cases hjc : (n - 1).testBit j0
        · rfl
        · exact absurd hjc hj0f
      have hj0h : j0 ≤ (n - 1).log2 - 1 := by
        rcases Nat.lt_or_ge j0 (n - 1).log2 with hlt | hge
        · omega
        · exfalso
          have hje : j0 = (n - 1).log2 := by omega
          rw [hje, hbit] at hj0f'
          exact Bool.noConfusion hj0f'
      obtain ⟨d, hdP, hdge, hdle, habove⟩ :
          ∃ d, (n - 1).testBit d = false ∧ (n - 1).log2 - 31 ≤ d ∧
            d ≤ (n - 1).log2 - 1 ∧
            ∀ j, d < j → j ≤ (n - 1).log2 → (n - 1).testBit j = true := by
        refine ⟨Nat.findGreatest (fun j => (n - 1).testBit j = false) ((n - 1).log2 - 1),
          ?_, ?_, ?_, ?_⟩
        · exact Nat.findGreatest_spec (P := fun j => (n - 1).testBit j = false) hj0h hj0f'
        · exact le_trans hj0b
            (Nat.le_findGreatest (P := fun j => (n - 1).testBit j = false) hj0h hj0f')
        · exact Nat.findGreatest_le _
        · intro j hdj hjh
          rcases Nat.lt_or_ge j (n - 1).log2 with hlt | hge
          · have hj1 : j ≤ (n - 1).log2 - 1 := by omega
            have hng := Nat.findGreatest_is_greatest
              (P := fun j => (n - 1).testBit j = false) hdj hj1
            cases hjc : (n - 1).testBit j with
            | false => exact absurd hjc hng
            | true => rfl
          · have hje : j = (n - 1).log2 := by omega
            rw [hje]
            exact hbit
      have hcover : ∀ j, d + 1 ≤ j ∨ j ≤ d → j ≤ (n - 1).log2 → d + 1 ≤ (n - 1).log2 →
          (d + 1 - j ≤ 31 → ∃ k, k < 32 ∧ (n - 1).testBit (j + k) = true) := by
        intro j hj hjl hdl hk31
        by_cases hjd : d + 1 ≤ j
        · exact ⟨0, by omega, by simpa using habove j (by omega) hjl⟩
        · refine ⟨d + 1 - j, by omega, ?_⟩
          rw [show j + (d + 1 - j) = d + 1 by omega]
          exact habove (d + 1) (by omega) hdl
      by_cases hd30 : d ≤ 30
      · apply route1
        have hm := mask_le_smear32 (v := n - 1) (a := (n - 1).log2) (b := 0) (by omega) ?_
        · simpa using hm
        · intro j _ hja
          exact hcover j (by omega) hja (by omega) (by omega)
      · push_neg at hd30
        have hm := mask_le_smear32 (v := n - 1) (a := (n - 1).log2) (b := d - 30)
          (by omega) ?_
        swap
        · intro j hbj hja
          exact hcover j (by omega) hja (by omega) (by omega)
        have hvb : (n - 1) + 2 ^ d < 2 ^ ((n - 1).log2 + 1) :=
          bound_of_testBit_false (by omega) hup hdP
        have hlin := levelSum_le_linear n n (le_refl n)
        have hcount : levelCount n n ≤ 65 := levelCount_le 63 n n (le_refl n) (by omega)
        have hp1 : 2 ^ (d - 30) ≤ 2 ^ (d - 1) := Nat.pow_le_pow_right (by omega) (by omega)
        have hp2 : 2 ^ d = 2 * 2 ^ (d - 1) := by
          conv_lhs => rw [show d = (d - 1) + 1 by omega]
          rw [Nat.pow_succ]
          ring
        have hp3 : (195 : Nat) ≤ 2 ^ (d - 1) := by
          calc (195 : Nat) ≤ 2 ^ 8 := by norm_num
          _ ≤ 2 ^ (d - 1) := Nat.pow_le_pow_right (by omega) (by omega)
        omega

/-- On every input a 64-bit `usize` build can see, `next_power_of_2` is one
more than the smeared predecessor (the final `v += 1` does not wrap). -/
theorem next_power_of_2_eq_smear (n : Nat) (h63 : n < 2 ^ 63) :
    next_power_of_2 n = smear32 (n - 1) + 1 := by
  unfold next_power_of_2
  have hlt : smear32 (n - 1) < 2 ^ 63 := smear32_lt (by omega)
  apply Nat.mod_eq_of_lt
  have hpow : (2 : Nat) ^ 63 < 2 ^ 64 := by norm_num
  omega

/-- The assembler's space requirement: all upper levels together fit
strictly below the internal-slot count computed by `next_power_of_2`. -/
theorem levelSum_lt_next_power_of_2 (n : Nat) (h2 : 2 ≤ n) (h63 : n < 2 ^ 63) :
    levelSum n n < next_power_of_2 n := by
  rw [next_power_of_2_eq_smear n h63]
  have := levelSum_le_smear32 n h2 h63
  omega

theorem next_power_of_2_pos (n : Nat) (h63 : n < 2 ^ 63) : 0 < next_power_of_2 n := by
  rw [next_power_of_2_eq_smear n h63]
  omega

end MerkleRS

namespace MerkleRS

/-! ## The window loop of the tree assembler -/

theorem root_spec_fuel (H : List Nat → Hash) :
    ∀ f g level, 1 ≤ level.length → level.length ≤ f → level.length ≤ g →
      root_spec H f level = root_spec H g level := by
  intro f
  induction f with
  | zero =>
    intro g level h1 hf _
    omega
  | succ f ih =>
    intro g level h1 hf hg
    obtain ⟨g', rfl⟩ : ∃ g', g = g' + 1 := ⟨g - 1, by omega⟩
    by_cases hlen : level.length ≤ 1
    · simp only [root_spec]
      rw [if_pos hlen, if_pos hlen]
    · simp only [root_spec]
      rw [if_neg hlen, if_neg hlen]
      have hL := build_upper_level_length H level
      have hlt := levelLen_lt level.length (by omega)
      have hpos := levelLen_pos level.length (by omega)
      exact ih g' (build_upper_level H level) (by omega) (by omega) (by omega)

theorem build_internal_loop_spec (H : List Nat → Hash) :
    ∀ fuel parents nodes s,
      1 ≤ parents.length → parents.length ≤ fuel →
      levelSum parents.length parents.length ≤ s → s ≤ nodes.length →
      ∃ nodes2 pfin,
        build_internal_loop H fuel nodes parents s = some (nodes2, pfin) ∧
        pfin.length = 1 ∧
        nodes2.length = nodes.length ∧
        nodes2.drop s = nodes.drop s ∧
        pfin.head? = root_spec H parents.length parents := by
  intro fuel
  induction fuel with
  | zero =>
    intro parents nodes s h1 hf _ _
    omega
  | succ fuel ih =>
    intro parents nodes s h1 hf hsum hs
    by_cases hgt : 1 < parents.length
    · have hm2 : 2 ≤ parents.length := hgt
      have hpsl : (build_upper_level H parents).length = levelLen parents.length :=
        build_upper_level_length H parents
      have hLlt := levelLen_lt parents.length hm2
      have hLpos := levelLen_pos parents.length (by omega)
      have hplen1 : parents.length = (parents.length - 1) + 1 := by omega
      have hsum_eq := levelSum_eq_of_ge_two (parents.length - 1) parents.length hm2
      rw [← hplen1] at hsum_eq
      have hguard : (build_upper_level H parents).length ≤ s ∧ s ≤ nodes.length := by
        constructor
        · omega
        · exact hs
      have hwlen : (writeSlice nodes (s - (build_upper_level H parents).length)
          (build_upper_level H parents)).length = nodes.length := by
        apply writeSlice_length
        omega
      have hrec := ih (build_upper_level H parents)
        (writeSlice nodes (s - (build_upper_level H parents).length)
          (build_upper_level H parents))
        (s - (build_upper_level H parents).length)
        (by omega) (by omega)
        (by
          rw [hpsl]
          rw [levelSum_fuel (levelLen parents.length) (parents.length - 1)
            (levelLen parents.length) (le_refl _) (by omega)]
          omega)
        (by omega)
      obtain ⟨nodes2, pfin, heq, hp1, hlen2, hdrop2, hhead⟩ := hrec
      refine ⟨nodes2, pfin, ?_, hp1, by omega, ?_, ?_⟩
      · simp only [build_internal_loop]
        rw [if_pos hgt, if_pos hguard]
        exact heq
      · have hd1 : nodes2.drop s = (writeSlice nodes
            (s - (build_upper_level H parents).length)
            (build_upper_level H parents)).drop s :=
          drop_eq_of_drop_eq hdrop2 (by omega)
        have hd2 := writeSlice_drop nodes (build_upper_level H parents)
          (s - (build_upper_level H parents).length) (by omega)
        rw [show (s - (build_upper_level H parents).length) +
            (build_upper_level H parents).length = s by omega] at hd2
        rw [hd1, hd2]
      · rw [hhead, hpsl]
        have hroot_eq : root_spec H parents.length parents =
            root_spec H (parents.length - 1) (build_upper_level H parents) := by
          conv_lhs => rw [show parents.length = (parents.length - 1) + 1 by omega]
          simp only [root_spec]
          rw [if_neg (by omega)]
        rw [hroot_eq]
        exact root_spec_fuel H (levelLen parents.length) (parents.length - 1)
          (build_upper_level H parents) (by rw [hpsl]; omega) (by rw [hpsl])
          (by rw [hpsl]; omega)
    · have hp1 : parents.length = 1 := by omega
      refine ⟨nodes, parents, ?_, hp1, rfl, rfl, ?_⟩
      · simp only [build_internal_loop]
        rw [if_neg hgt]
      · rw [hp1]
        simp only [root_spec]
        rw [if_pos (by omega)]

end MerkleRS

namespace MerkleRS

/-- Success and postconditions of the full assembler on the node array the
facade allocates: the leaf tail is untouched and slot 0 receives the
reference root. -/
theorem build_internal_nodes_spec (H : List Nat → Hash) (leaves : List Hash) (cin : Nat)
    (h2 : 2 ≤ leaves.length)
    (hsum : levelSum leaves.length leaves.length < cin) :
    ∃ nodes2,
      build_internal_nodes H (List.replicate cin ([] : Hash) ++ leaves) cin = some nodes2 ∧
      nodes2.length = cin + leaves.length ∧
      nodes2.drop cin = leaves ∧
      nodes2[0]? = root_spec H leaves.length leaves := by
  have hdrop0 : (List.replicate cin ([] : Hash) ++ leaves).drop cin = leaves :=
    List.drop_left' (by simp)
  have hlen0 : (List.replicate cin ([] : Hash) ++ leaves).length = cin + leaves.length := by
    simp
  have hpsl : (build_upper_level H leaves).length = levelLen leaves.length :=
    build_upper_level_length H leaves
  have hLlt := levelLen_lt leaves.length h2
  have hLpos := levelLen_pos leaves.length (by omega)
  have hplen1 : leaves.length = (leaves.length - 1) + 1 := by omega
  have hsum_eq := levelSum_eq_of_ge_two (leaves.length - 1) leaves.length h2
  rw [← hplen1] at hsum_eq
  have hguard : (build_upper_level H leaves).length ≤ cin ∧
      cin ≤ (List.replicate cin ([] : Hash) ++ leaves).length := by
    constructor
    · omega
    · omega
  have hwlen : (writeSlice (List.replicate cin ([] : Hash) ++ leaves)
      (cin - (build_upper_level H leaves).length) (build_upper_level H leaves)).length =
      cin + leaves.length := by
    rw [writeSlice_length _ _ _ (by omega)]
    exact hlen0
  have hloop := build_internal_loop_spec H (build_upper_level H leaves).length
    (build_upper_level H leaves)
    (writeSlice (List.replicate cin ([] : Hash) ++ leaves)
      (cin - (build_upper_level H leaves).length) (build_upper_level H leaves))
    (cin - (build_upper_level H leaves).length)
    (by omega) (le_refl _)
    (by
      rw [hpsl]
      rw [levelSum_fuel (levelLen leaves.length) (leaves.length - 1)
        (levelLen leaves.length) (le_refl _) (by omega)]
      omega)
    (by omega)
  obtain ⟨nodes2, pfin, heq, hp1, hlen2, hdrop2, hhead⟩ := hloop
  obtain ⟨p, rfl⟩ : ∃ p, pfin = [p] := List.length_eq_one.mp hp1
  have hlen2' : nodes2.length = cin + leaves.length := by omega
  obtain ⟨x, rest2, rfl⟩ : ∃ x rest2, nodes2 = x :: rest2 := by
    cases nodes2 with
    | nil => simp at hlen2'; omega
    | cons x rest2 => exact ⟨x, rest2, rfl⟩
  refine ⟨p :: rest2, ?_, ?_, ?_, ?_⟩
  · simp only [build_internal_nodes]
    rw [hdrop0, if_pos hguard, heq]
  · simpa using hlen2'
  · have hcin1 : 1 ≤ cin := by omega
    have hdtail : (p :: rest2).drop cin = (x :: rest2).drop cin := by
      obtain ⟨c', rfl⟩ : ∃ c', cin = c' + 1 := ⟨cin - 1, by omega⟩
      simp
    rw [hdtail]
    have hd1 : (x :: rest2).drop cin =
        (writeSlice (List.replicate cin ([] : Hash) ++ leaves)
          (cin - (build_upper_level H leaves).length)
          (build_upper_level H leaves)).drop cin :=
      drop_eq_of_drop_eq hdrop2 (by omega)
    have hd2 := writeSlice_drop (List.replicate cin ([] : Hash) ++ leaves)
      (build_upper_level H leaves) (cin - (build_upper_level H leaves).length) (by omega)
    rw [show (cin - (build_upper_level H leaves).length) +
        (build_upper_level H leaves).length = cin by omega] at hd2
    rw [hd1, hd2, hdrop0]
  · have hp : ([p] : List Hash).head? = some p := rfl
    rw [hp] at hhead
    have hroot_eq : root_spec H leaves.length leaves =
        root_spec H (leaves.length - 1) (build_upper_level H leaves) := by
      conv_lhs => rw [hplen1]
      simp only [root_spec]
      rw [if_neg (by omega)]
    have hfuel : root_spec H (leaves.length - 1) (build_upper_level H leaves) =
        root_spec H (build_upper_level H leaves).length (build_upper_level H leaves) :=
      root_spec_fuel H (leaves.length - 1) (build_upper_level H leaves).length
        (build_upper_level H leaves) (by rw [hpsl]; omega) (by rw [hpsl]; omega)
        (le_refl _)
    simp only [List.getElem?_cons_zero]
    rw [hroot_eq, hfuel, ← hhead]

end MerkleRS

namespace MerkleRS

theorem getElem?_eq_some_getD {α : Type} (l : List α) (i : Nat) (d : α) (h : i < l.length) :
    l[i]? = some (l.getD i d) := by
  rw [List.getElem?_eq_getElem h, List.getD_eq_getElem?_getD, List.getElem?_eq_getElem h]
  rfl

/-- Master success lemma for `build_with_hasher`: for every value sequence a
Rust `Vec` can hold (at least two values, fewer than `2 ^ 63`), the build
completes and the resulting tree has the advertised shape: the leaf digests
sit in input order after the `next_power_of_2` internal slots, and slot 0
holds the reference Merkle root of the leaf level. -/
theorem build_ok (values : List (List Nat)) (H : List Nat → Hash)
    (h2 : 2 ≤ values.length) (h63 : values.length < 2 ^ 63) :
    ∃ t, build_with_hasher values H = .ok t ∧
      t.hasher = H ∧
      t.count_leaves = values.length ∧
      t.count_internal_nodes = next_power_of_2 values.length ∧
      t.nodes.length = next_power_of_2 values.length + values.length ∧
      (∀ i, t.nodes[next_power_of_2 values.length + i]? =
        (values.map (fun v => hash_leaf H v))[i]?) ∧
      t.nodes[0]? = root_spec H values.length (values.map (fun v => hash_leaf H v)) := by
  have hmlen : (values.map (fun v => hash_leaf H v)).length = values.length := by simp
  have hsum := levelSum_lt_next_power_of_2 values.length h2 h63
  obtain ⟨nodes2, heq, hlen, hdrop, hroot⟩ :=
    build_internal_nodes_spec H (values.map (fun v => hash_leaf H v))
      (next_power_of_2 values.length)
      (by rw [hmlen]; exact h2)
      (by rw [hmlen]; exact hsum)
  refine ⟨⟨H, nodes2, next_power_of_2 values.length, values.length⟩, ?_, rfl, rfl, rfl,
    ?_, ?_, ?_⟩
  · simp only [build_with_hasher]
    rw [if_pos (show 1 < values.length by omega)]
    simp only [hmlen]
    rw [heq]
  · simpa [hmlen] using hlen
  · intro i
    have hg : (nodes2.drop (next_power_of_2 values.length))[i]? =
        nodes2[next_power_of_2 values.length + i]? := getElem?_drop' _ _ _
    rw [← hg, hdrop]
  · rw [hroot, hmlen]

end MerkleRS

namespace MerkleRS

/-! ## Pointwise behaviour of the level builder -/

theorem bul_loop_pair (H : List Nat → Hash) :
    ∀ (l : List Hash) (i : Nat), 2 * i + 1 < l.length →
      (build_upper_level_loop H l)[i]? =
        some (hash_internal_node H (l.getD (2 * i) []) (some (l.getD (2 * i + 1) []))) := by
  intro l
  match l with
  | [] =>
    intro i h
    simp only [List.length_nil] at h
    omega
  | [x] =>
    intro i h
    simp only [List.length_cons, List.length_nil] at h
    omega
  | x :: y :: rest =>
    intro i h
    match i with
    | 0 => simp [build_upper_level_loop]
    | j + 1 =>
      have hr : 2 * j + 1 < rest.length := by
        simp only [List.length_cons] at h
        omega
      have ih := bul_loop_pair H rest j hr
      simp only [build_upper_level_loop, List.getElem?_cons_succ]
      rw [show 2 * (j + 1) = 2 * j + 1 + 1 by omega]
      simp only [List.getD_cons_succ]
      exact ih

theorem bul_loop_odd (H : List Nat → Hash) :
    ∀ l : List Hash, l.length % 2 = 1 →
      (build_upper_level_loop H l)[l.length / 2]? =
        some (hash_internal_node H (l.getD (l.length - 1) []) none) := by
  intro l
  match l with
  | [] =>
    intro h
    simp at h
  | [x] =>
    intro _
    simp [build_upper_level_loop]
  | x :: y :: rest =>
    intro h
    have hodd : rest.length % 2 = 1 := by
      simp only [List.length_cons] at h
      omega
    have hpos : 1 ≤ rest.length := by omega
    have ih := bul_loop_odd H rest hodd
    simp only [build_upper_level_loop, List.length_cons]
    rw [show (rest.length + 1 + 1) / 2 = rest.length / 2 + 1 by omega]
    simp only [List.getElem?_cons_succ]
    rw [show rest.length + 1 + 1 - 1 = (rest.length - 1) + 1 + 1 by omega]
    simp only [List.getD_cons_succ]
    exact ih

theorem bul_prefix_agrees (H : List Nat → Hash) (l : List Hash) (i : Nat)
    (hi : i < (l.length + 1) / 2) :
    (build_upper_level H l)[i]? = (build_upper_level_loop H l)[i]? := by
  simp only [build_upper_level]
  split
  · exact List.getElem?_append_left (by rw [build_upper_level_loop_length]; omega)
  · rfl

theorem bul_pad_copies_last (H : List Nat → Hash) (l : List Hash)
    (hgt : 1 < (l.length + 1) / 2) (hodd : (l.length + 1) / 2 % 2 = 1) :
    (build_upper_level H l)[(l.length + 1) / 2]? =
      (build_upper_level_loop H l)[(l.length + 1) / 2 - 1]? := by
  have hlen := build_upper_level_loop_length H l
  have hne : build_upper_level_loop H l ≠ [] := by
    intro hnil
    rw [hnil] at hlen
    simp at hlen
    omega
  simp only [build_upper_level]
  rw [if_pos (by rw [hlen]; omega)]
  rw [List.getElem?_append_right (by omega)]
  rw [hlen, Nat.sub_self]
  have hlast : (build_upper_level_loop H l).getLastD [] =
      ((build_upper_level_loop H l).getLast? ).getD [] := by
    rw [List.getLastD_eq_getLast?]
  rw [List.getLast?_eq_getElem?] at hlast
  rw [hlen] at hlast
  cases hx : (build_upper_level_loop H l)[(l.length + 1) / 2 - 1]? with
  | none =>
    exfalso
    rw [List.getElem?_eq_none_iff] at hx
    rw [hlen] at hx
    omega
  | some a =>
    rw [hx] at hlast
    simp at hlast
    simp [hlast]

end MerkleRS

namespace MerkleRS

/-! ## The claims -/

/-- C1: round trip — for every value sequence of length at least 2 (and
within the capacity a Rust `Vec<Vec<u8>>` can reach, `< 2 ^ 63`) and every
index `i < values.length`, building a tree from `values` and then calling
`verify(tree, i, values[i])` returns `true`: the leaf digest recomputed by
`verify` equals the digest stored at slot `count_internal_nodes + i` during
the build. -/
theorem verify_roundtrip (values : List (List Nat)) (H : List Nat → Hash) (i : Nat)
    (h2 : 2 ≤ values.length) (h63 : values.length < 2 ^ 63) (hi : i < values.length) :
    build_then_verify values H i (values.getD i []) = .ok true := by
  obtain ⟨t, hb, hH, hcl, hcin, hlen, hleaf, hroot⟩ := build_ok values H h2 h63
  unfold build_then_verify
  rw [hb]
  show (t.verify i (values.getD i [])).map Prod.fst = .ok true
  simp only [MerkleTree.verify]
  rw [if_pos (show i < t.count_leaves by omega)]
  have hv : (values.map (fun v => hash_leaf H v))[i]? =
      some (hash_leaf H (values.getD i [])) := by
    rw [List.getElem?_map, getElem?_eq_some_getD values i [] hi]
    rfl
  rw [hcin, hleaf i, hv, hH]
  simp [Except.map]

/-- C2: tamper detection — for a built tree, a valid position `i` and any
value whose leaf digest differs from the leaf digest of `values[i]` (the
no-hash-collision hypothesis), `verify` returns `false`. -/
theorem verify_tampered (values : List (List Nat)) (H : List Nat → Hash) (i : Nat)
    (w : List Nat) (h2 : 2 ≤ values.length) (h63 : values.length < 2 ^ 63)
    (hi : i < values.length)
    (hne : hash_leaf H w ≠ hash_leaf H (values.getD i [])) :
    build_then_verify values H i w = .ok false := by
  obtain ⟨t, hb, hH, hcl, hcin, hlen, hleaf, hroot⟩ := build_ok values H h2 h63
  unfold build_then_verify
  rw [hb]
  show (t.verify i w).map Prod.fst = .ok false
  simp only [MerkleTree.verify]
  rw [if_pos (show i < t.count_leaves by omega)]
  have hv : (values.map (fun v => hash_leaf H v))[i]? =
      some (hash_leaf H (values.getD i [])) := by
    rw [List.getElem?_map, getElem?_eq_some_getD values i [] hi]
    rfl
  rw [hcin, hleaf i, hv, hH]
  simp only [Except.map]
  rw [beq_eq_false_iff_ne.mpr (fun hcon => hne hcon.symm)]

/-- C3: shape invariants of a built tree — the node array has length
`next_power_of_2 leafCount + leafCount`, slot 0 holds the root digest (the
recursive fold of `build_upper_level` over the leaf level), slot
`count_internal_nodes + i` holds the leaf digest `H(0x00 ‖ bytes(values[i]))`
for every `i < leafCount`, and no later `verify` call changes the tree. -/
theorem build_invariants (values : List (List Nat)) (H : List Nat → Hash) (t : MerkleTree)
    (h63 : values.length < 2 ^ 63)
    (hb : build_with_hasher values H = .ok t) :
    t.nodes.length = next_power_of_2 values.length + values.length ∧
    t.nodes[0]? = root_spec H values.length (values.map (fun v => hash_leaf H v)) ∧
    (∀ i, i < values.length →
      t.nodes[t.count_internal_nodes + i]? = some (hash_leaf H (values.getD i []))) ∧
    (∀ pos v r t', t.verify pos v = .ok (r, t') → t' = t) := by
  have h2 : 2 ≤ values.length := by
    by_contra hc
    push_neg at hc
    simp only [build_with_hasher] at hb
    rw [if_neg (by omega)] at hb
    exact Except.noConfusion hb
  obtain ⟨t0, hb0, hH, hcl, hcin, hlen, hleaf, hroot⟩ := build_ok values H h2 h63
  rw [hb0] at hb
  injection hb with hb'
  subst hb'
  refine ⟨hlen, hroot, ?_, ?_⟩
  · intro i hi
    rw [hcin, hleaf i, List.getElem?_map, getElem?_eq_some_getD values i [] hi]
    rfl
  · intro pos v r t' hv
    simp only [MerkleTree.verify] at hv
    by_cases hpos : pos < t0.count_leaves
    · rw [if_pos hpos] at hv
      cases hx : t0.nodes[t0.count_internal_nodes + pos]? with
      | some d =>
        rw [hx] at hv
        injection hv with hpair
        rw [Prod.ext_iff] at hpair
        exact hpair.2.symm
      | none =>
        rw [hx] at hv
        exact Except.noConfusion hv
    · rw [if_neg hpos] at hv
      exact Except.noConfusion hv

end MerkleRS

namespace MerkleRS

/-- C4: the level builder — the scan emits `(l.length + 1) / 2` digests:
the pair hash `hashInternal(l[2i], l[2i+1])` at every slot `i` with a full
pair, and the self-pair hash `hashInternal(l[last], None)` at the final
slot when the input length is odd; the resize rule leaves the scanned
prefix unchanged and, exactly when the scanned level has more than one
element and an odd count, appends a value copy of its last element (no
further hashing), so the returned level has even length or length one. -/
theorem build_upper_level_spec (H : List Nat → Hash) (l : List Hash) :
    (build_upper_level_loop H l).length = (l.length + 1) / 2 ∧
    (∀ i, 2 * i + 1 < l.length →
      (build_upper_level_loop H l)[i]? =
        some (hash_internal_node H (l.getD (2 * i) []) (some (l.getD (2 * i + 1) [])))) ∧
    (l.length % 2 = 1 →
      (build_upper_level_loop H l)[l.length / 2]? =
        some (hash_internal_node H (l.getD (l.length - 1) []) none)) ∧
    (∀ i, i < (l.length + 1) / 2 →
      (build_upper_level H l)[i]? = (build_upper_level_loop H l)[i]?) ∧
    (1 < (l.length + 1) / 2 → (l.length + 1) / 2 % 2 = 1 →
      (build_upper_level H l).length = (l.length + 1) / 2 + 1 ∧
      (build_upper_level H l)[(l.length + 1) / 2]? =
        (build_upper_level_loop H l)[(l.length + 1) / 2 - 1]?) ∧
    ((build_upper_level H l).length = 1 ∨ (build_upper_level H l).length % 2 = 0) := by
  refine ⟨build_upper_level_loop_length H l, bul_loop_pair H l, bul_loop_odd H l,
    fun i hi => bul_prefix_agrees H l i hi, fun hgt hodd => ⟨?_, bul_pad_copies_last H l hgt hodd⟩, ?_⟩
  · rw [build_upper_level_length]
    unfold levelLen
    rw [if_pos (by omega)]
  · rw [build_upper_level_length]
    unfold levelLen
    split <;> omega

/-- C5: `next_power_of_2` — on every positive input up to `2 ^ 32` it
returns the least power of two that is at least the input (as the
specification demands), but at the 64-bit `usize` input `2 ^ 32 + 1` the
missing `v |= v >> 32` smearing step makes it return `2 ^ 33 - 1`, which is
not a power of two: the code contradicts its own contract on the upper half
of the machine-word range. -/
theorem next_power_of_2_spec :
    (∀ n, 1 ≤ n → n ≤ 2 ^ 32 → IsLeastPowTwoGe (next_power_of_2 n) n) ∧
    next_power_of_2 (2 ^ 32 + 1) = 2 ^ 33 - 1 ∧
    (∀ k, 2 ^ 33 - 1 ≠ 2 ^ k) := by
  refine ⟨?_, by decide, ?_⟩
  · intro n h1 h32
    have hclog : next_power_of_2 n = 2 ^ Nat.clog 2 n := by
      rcases Nat.eq_or_lt_of_le h1 with h1e | h2
      · rw [← h1e, show Nat.clog 2 1 = 0 from Nat.clog_one_right 2]
        decide
      · have h2' : 2 ≤ n := h2
        have hv1 : 1 ≤ n - 1 := by omega
        have hbit : (n - 1).testBit (n - 1).log2 = true := testBit_log2_self (by omega)
        have hup : n - 1 < 2 ^ ((n - 1).log2 + 1) :=
          (Nat.log2_lt (by omega)).mp (Nat.lt_succ_self _)
        have hlow : 2 ^ (n - 1).log2 ≤ n - 1 := Nat.log2_self_le (by omega)
        have hh31 : (n - 1).log2 ≤ 31 := by
          by_contra hcon
          push_neg at hcon
          have hmono : 2 ^ 32 ≤ 2 ^ (n - 1).log2 := Nat.pow_le_pow_right (by omega) (by omega)
          have : (2 : Nat) ^ 32 ≤ n - 1 := le_trans hmono hlow
          omega
        have hones : 2 ^ ((n - 1).log2 + 1) - 1 ≤ smear32 (n - 1) := by
          have hm := mask_le_smear32 (v := n - 1) (a := (n - 1).log2) (b := 0) (by omega) ?_
          · simpa using hm
          · intro j _ hja
            refine ⟨(n - 1).log2 - j, by omega, ?_⟩
            rw [show j + ((n - 1).log2 - j) = (n - 1).log2 by omega]
            exact hbit
        have hsmlt : smear32 (n - 1) < 2 ^ ((n - 1).log2 + 1) := smear32_lt hup
        have hsm : smear32 (n - 1) = 2 ^ ((n - 1).log2 + 1) - 1 := by omega
        have hnp : next_power_of_2 n = 2 ^ ((n - 1).log2 + 1) := by
          rw [next_power_of_2_eq_smear n (by omega), hsm]
          have hpos : 0 < 2 ^ ((n - 1).log2 + 1) := Nat.two_pow_pos _
          omega
        have hcl : Nat.clog 2 n = (n - 1).log2 + 1 := by
          have hle : Nat.clog 2 n ≤ (n - 1).log2 + 1 :=
            (Nat.le_pow_iff_clog_le one_lt_two).mp (by omega)
          have hgt : ¬ Nat.clog 2 n ≤ (n - 1).log2 := by
            intro hc
            have := (Nat.le_pow_iff_clog_le one_lt_two).mpr hc
            omega
          omega
        rw [hnp, hcl]
    rw [hclog]
    refine ⟨⟨Nat.clog 2 n, rfl⟩, Nat.le_pow_clog one_lt_two n, ?_⟩
    rintro q ⟨k, rfl⟩ hq
    exact Nat.pow_le_pow_right (by omega) ((Nat.le_pow_iff_clog_le one_lt_two).mp hq)
  · intro k hk
    have h32 : (2 : Nat) ^ 32 < 2 ^ 33 - 1 := by norm_num
    have h33 : (2 : Nat) ^ 33 - 1 < 2 ^ 33 := by norm_num
    rcases le_or_lt k 32 with hk32 | hk33
    · have : (2 : Nat) ^ k ≤ 2 ^ 32 := Nat.pow_le_pow_right (by omega) hk32
      omega
    · have : (2 : Nat) ^ 33 ≤ 2 ^ k := Nat.pow_le_pow_right (by omega) hk33
      omega

end MerkleRS

namespace MerkleRS

/-- C6: `build` fails with `DegenerateInput` exactly when fewer than two
values are supplied, and succeeds (returns an assembled tree) for every
sequence of at least two values that a Rust `Vec<Vec<u8>>` can hold. -/
theorem build_degenerate_iff (values : List (List Nat)) (H : List Nat → Hash) :
    (build_with_hasher values H = .error .DegenerateInput ↔ values.length ≤ 1) ∧
    (2 ≤ values.length → values.length < 2 ^ 63 →
      (build_with_hasher values H).isOk = true) := by
  constructor
  · constructor
    · intro heq
      by_contra hc
      push_neg at hc
      simp only [build_with_hasher] at heq
      rw [if_pos (by omega)] at heq
      rcases hbi : build_internal_nodes H
          (List.replicate (next_power_of_2 (values.map (fun v => hash_leaf H v)).length)
            ([] : Hash) ++ values.map (fun v => hash_leaf H v))
          (next_power_of_2 (values.map (fun v => hash_leaf H v)).length) with _ | n2
      · rw [hbi] at heq
        injection heq with hE
        exact MerkleError.noConfusion hE
      · rw [hbi] at heq
        exact Except.noConfusion heq
    · intro hle
      simp only [build_with_hasher]
      rw [if_neg (by omega)]
  · intro h2 h63
    obtain ⟨t, hb, -, -, -, -, -, -⟩ := build_ok values H h2 h63
    rw [hb]
    rfl

/-- C7: `verify` fails with `PositionOutOfRange` on a built tree exactly
when the position is at least `count_leaves`, and for every smaller
position it completes and returns a boolean. -/
theorem verify_position_range (values : List (List Nat)) (H : List Nat → Hash)
    (t : MerkleTree) (pos : Nat) (v : List Nat)
    (h63 : values.length < 2 ^ 63) (hb : build_with_hasher values H = .ok t) :
    (t.verify pos v = .error .PositionOutOfRange ↔ t.count_leaves ≤ pos) ∧
    (pos < t.count_leaves → (t.verify pos v).isOk = true) := by
  have h2 : 2 ≤ values.length := by
    by_contra hc
    push_neg at hc
    simp only [build_with_hasher] at hb
    rw [if_neg (by omega)] at hb
    exact Except.noConfusion hb
  obtain ⟨t0, hb0, hH, hcl, hcin, hlen, hleaf, hroot⟩ := build_ok values H h2 h63
  rw [hb0] at hb
  injection hb with hb'
  subst hb'
  have hin : pos < t0.count_leaves → t0.count_internal_nodes + pos < t0.nodes.length := by
    intro hp
    omega
  constructor
  · constructor
    · intro he
      by_contra hc
      push_neg at hc
      simp only [MerkleTree.verify] at he
      rw [if_pos hc, List.getElem?_eq_getElem (hin hc)] at he
      exact Except.noConfusion he
    · intro hge
      simp only [MerkleTree.verify]
      rw [if_neg (by omega)]
  · intro hlt
    simp only [MerkleTree.verify]
    rw [if_pos hlt, List.getElem?_eq_getElem (hin hlt)]
    rfl

/-- C8: domain separation — the preimage hashed for a leaf starts with the
tag byte 0 while the preimage hashed for an internal node over the pair
`(b, b)` (or over `b` with an absent right child, which hashes `b` twice)
starts with the tag byte 1, so the preimages always differ, and for any
collision-free (injective) hash algorithm the digests differ as well. -/
theorem domain_separation (b : List Nat) :
    (LEAF_SIG :: b) ≠ (INTERNAL_SIG :: (b ++ b)) ∧
    (∀ H : List Nat → Hash, Function.Injective H →
      hash_leaf H b ≠ hash_internal_node H b (some b) ∧
      hash_leaf H b ≠ hash_internal_node H b none) := by
  have hpre : (LEAF_SIG :: b) ≠ (INTERNAL_SIG :: (b ++ b)) := by
    intro hcon
    injection hcon with h0 h1
    exact Nat.noConfusion h0
  refine ⟨hpre, fun H hinj => ⟨?_, ?_⟩⟩
  · intro hcon
    exact hpre (hinj hcon)
  · intro hcon
    exact hpre (hinj hcon)

/-- C9: frame — `verify` never changes the node array or the two counters,
whatever its boolean result: the tree it returns carries the same `nodes`,
`count_internal_nodes` and `count_leaves` as the tree it was called on, so
repeated verifications compare against the same stored digests. -/
theorem verify_frame (t : MerkleTree) (pos : Nat) (v : List Nat) (b : Bool)
    (t' : MerkleTree) (hv : t.verify pos v = .ok (b, t')) :
    t'.nodes = t.nodes ∧ t'.count_internal_nodes = t.count_internal_nodes ∧
    t'.count_leaves = t.count_leaves := by
  simp only [MerkleTree.verify] at hv
  by_cases hpos : pos < t.count_leaves
  · rw [if_pos hpos] at hv
    cases hx : t.nodes[t.count_internal_nodes + pos]? with
    | some d =>
      rw [hx] at hv
      injection hv with hpair
      rw [Prod.ext_iff] at hpair
      have ht : t = t' := hpair.2
      rw [← ht]
      exact ⟨rfl, rfl, rfl⟩
    | none =>
      rw [hx] at hv
      exact Except.noConfusion hv
  · rw [if_neg hpos] at hv
    exact Except.noConfusion hv

/-- C10: assembler safety — under the precondition established by the
facade (`count_internal_nodes = next_power_of_2 leafCount`, at least two
leaves), the sum of all padded upper-level sizes (`levelSum`, with
`build_upper_level` producing exactly `levelLen` digests per level) is at
most `next_power_of_2 leafCount`, so no window start underflows and every
slice write stays inside the internal-slot region: the assembler runs to
completion. -/
theorem assembler_in_bounds (H : List Nat → Hash) (leaves : List Hash)
    (h2 : 2 ≤ leaves.length) (h63 : leaves.length < 2 ^ 63) :
    levelSum leaves.length leaves.length ≤ next_power_of_2 leaves.length ∧
    (∀ l : List Hash, (build_upper_level H l).length = levelLen l.length) ∧
    (build_internal_nodes H
      (List.replicate (next_power_of_2 leaves.length) ([] : Hash) ++ leaves)
      (next_power_of_2 leaves.length)).isSome = true := by
  have hsum := levelSum_lt_next_power_of_2 leaves.length h2 h63
  refine ⟨by omega, build_upper_level_length H, ?_⟩
  obtain ⟨nodes2, heq, -, -, -⟩ :=
    build_internal_nodes_spec H leaves (next_power_of_2 leaves.length) h2 (by omega)
  rw [heq]
  rfl

end MerkleRS

namespace MerkleRS

/-! ## Concrete instances -/

/-- The tree `build_with_hasher [[0], [1]]` produces for the identity hash
algorithm, written out: root at slot 0, the two leaf digests at the tail. -/
def exampleTree : MerkleTree :=
  ⟨id, [[1, 0, 0, 0, 1], [1, 0, 0, 0, 1], [0, 0], [0, 1]], 2, 2⟩

theorem verify_roundtrip_witness :
    build_then_verify [[0], [1]] id 0 [0] = .ok true :=
  verify_roundtrip [[0], [1]] id 0 (by decide) (by decide) (by decide)

theorem verify_tampered_witness :
    build_then_verify [[0], [1]] id 0 [5] = .ok false :=
  verify_tampered [[0], [1]] id 0 [5] (by decide) (by decide) (by decide) (by decide)

theorem build_invariants_witness :
    exampleTree.nodes.length = next_power_of_2 2 + 2 ∧
    exampleTree.nodes[0]? = root_spec id 2 ([[0], [1]].map (fun v => hash_leaf id v)) ∧
    exampleTree.nodes[exampleTree.count_internal_nodes + 0]? = some (hash_leaf id [0]) := by
  obtain ⟨h1, h2, h3, h4⟩ := build_invariants [[0], [1]] id exampleTree (by decide) rfl
  exact ⟨h1, h2, h3 0 (by decide)⟩

theorem build_upper_level_spec_witness :
    (build_upper_level_loop id [[1], [2], [3], [4], [5]]).length = 3 ∧
    (build_upper_level_loop id [[1], [2], [3], [4], [5]])[0]? =
      some (hash_internal_node id [1] (some [2])) ∧
    (build_upper_level_loop id [[1], [2], [3], [4], [5]])[2]? =
      some (hash_internal_node id [5] none) ∧
    (build_upper_level id [[1], [2], [3], [4], [5]]).length = 4 ∧
    (build_upper_level id [[1], [2], [3], [4], [5]])[3]? =
      (build_upper_level_loop id [[1], [2], [3], [4], [5]])[2]? ∧
    ((build_upper_level id [[1], [2], [3], [4], [5]]).length = 1 ∨
      (build_upper_level id [[1], [2], [3], [4], [5]]).length % 2 = 0) := by
  obtain ⟨h1, h2, h3, h4, h5, h6⟩ := build_upper_level_spec id [[1], [2], [3], [4], [5]]
  obtain ⟨h5a, h5b⟩ := h5 (by decide) (by decide)
  exact ⟨h1, h2 0 (by decide), h3 (by decide), h5a, h5b, h6⟩

theorem next_power_of_2_spec_witness :
    next_power_of_2 (2 ^ 32 + 1) = 2 ^ 33 - 1 ∧ 2 ^ 33 - 1 ≠ 2 ^ 33 ∧
    next_power_of_2 5 ≤ 8 :=
  ⟨next_power_of_2_spec.2.1, next_power_of_2_spec.2.2 33,
    (next_power_of_2_spec.1 5 (by decide) (by decide)).2.2 8 ⟨3, rfl⟩ (by decide)⟩

theorem build_degenerate_iff_witness :
    build_with_hasher ([] : List (List Nat)) id = .error .DegenerateInput ∧
    build_with_hasher [[7]] id = .error .DegenerateInput ∧
    (build_with_hasher [[0], [1]] id).isOk = true :=
  ⟨(build_degenerate_iff [] id).1.mpr (by decide),
    (build_degenerate_iff [[7]] id).1.mpr (by decide),
    (build_degenerate_iff [[0], [1]] id).2 (by decide) (by decide)⟩

theorem verify_position_range_witness :
    exampleTree.verify 2 [9] = .error .PositionOutOfRange ∧
    (exampleTree.verify 0 [0]).isOk = true :=
  ⟨(verify_position_range [[0], [1]] id exampleTree 2 [9] (by decide) rfl).1.mpr
      (by decide),
    (verify_position_range [[0], [1]] id exampleTree 0 [0] (by decide) rfl).2 (by decide)⟩

theorem domain_separation_witness :
    (LEAF_SIG :: [7] ≠ INTERNAL_SIG :: ([7] ++ [7])) ∧
    hash_leaf id [7] ≠ hash_internal_node id [7] (some [7]) ∧
    hash_leaf id [7] ≠ hash_internal_node id [7] none := by
  obtain ⟨h1, h2⟩ := domain_separation [7]
  obtain ⟨h3, h4⟩ := h2 id (fun a b h => h)
  exact ⟨h1, h3, h4⟩

theorem verify_frame_witness :
    exampleTree.nodes = exampleTree.nodes ∧
    exampleTree.count_internal_nodes = exampleTree.count_internal_nodes ∧
    exampleTree.count_leaves = exampleTree.count_leaves :=
  verify_frame exampleTree 0 [0] true exampleTree rfl

theorem assembler_in_bounds_witness :
    levelSum 3 3 ≤ next_power_of_2 3 ∧
    (build_upper_level id [[9]]).length = levelLen 1 ∧
    (build_internal_nodes id
      (List.replicate (next_power_of_2 3) ([] : Hash) ++ [[1], [2], [3]])
      (next_power_of_2 3)).isSome = true := by
  obtain ⟨h1, h2, h3⟩ := assembler_in_bounds id [[1], [2], [3]] (by decide) (by decide)
  exact ⟨h1, h2 [[9]], h3⟩

end MerkleRS
